import Mathlib

/-!
# Verification of the quantique poesie generator core

A shallow embedding of the core state holders of the application:
the combination engine (`CombinationGenerator`), the word selection
state (`WordManager`), the rating gate (`RatingManager`) and the
history store (`HistoryManager`), together with theorems about them.

Modelling conventions:
* JavaScript `Math.floor(Math.random() * n)` calls are modelled by an
  oracle `rand : Nat → Nat`; the value actually used is `rand i % n`,
  so every sequence of in-range draws is represented by some oracle.
* A JavaScript `Set` (insertion ordered, duplicate free) is modelled
  by a `List` kept duplicate free; `values().next().value` is the head.
* JavaScript numbers holding scores are modelled by `ℚ`
  (`Number.isInteger x` becomes `x.den = 1`); timestamps by `Int`.
* DOM side effects (CSS classes, aria attributes, rendered text) are
  outside the model; the DOM radio-button state that the code reads
  back (`:checked`) is part of the rating state.
-/

namespace Poetic

open scoped List

/-- `CONFIG.WORDS`: the fixed vocabulary. -/
def CONFIG_WORDS : List String :=
  ["Je", "suis", "rêveur", "professionnel", "dans", "mon", "métier",
   "exceptionnel", "l'erreur", "en", "tout", "genre", "est", "proscrite",
   "la", "souveraine", "intelligence", "pour", "moi-même", "grandissant"]

/-- `CONFIG.LIMITS.MAX_HISTORY_ENTRIES`. -/
def MAX_HISTORY_ENTRIES : Nat := 1000

/-- `CONFIG.LIMITS.MIN_RATING`. -/
def MIN_RATING : ℚ := 1

/-- `CONFIG.LIMITS.MAX_RATING`. -/
def MAX_RATING : ℚ := 10

/-- `CONFIG.LIMITS.MAX_RECENT_COMBINATIONS`. -/
def MAX_RECENT_COMBINATIONS : Nat := 10

/-! ## Formatting (`CombinationGenerator.formatCombination`) -/

/-- Single-character model of JavaScript `String.prototype.toUpperCase`,
covering Basic Latin and the Latin-1 letters of the French vocabulary
(every letter with a one-character simple uppercase mapping). -/
def jsCharToUpper (c : Char) : Char :=
  if 'a' ≤ c ∧ c ≤ 'z' then Char.ofNat (c.toNat - 32)
  else if ('à' ≤ c ∧ c ≤ 'ö') ∨ ('ø' ≤ c ∧ c ≤ 'þ') then Char.ofNat (c.toNat - 32)
  else if c = 'ÿ' then 'Ÿ'
  else c

/-- `word.charAt(0).toUpperCase() + word.slice(1)`. -/
def capitalizeFirstJS (w : String) : String :=
  match w.data with
  | [] => ""
  | c :: cs => String.mk (jsCharToUpper c :: cs)

/-- The indexed map inside `formatCombination`:
index 0 is capitalized, the literal token `"Je"` elsewhere becomes
`"je"`, any other word is unchanged. -/
def formatWordsAux : Nat → List String → List String
  | _, [] => []
  | i, w :: ws =>
    (if i = 0 then capitalizeFirstJS w
     else if w = "Je" then "je"
     else w) :: formatWordsAux (i + 1) ws

/-- `CombinationGenerator.formatCombination`: format the chosen words,
join them with single spaces and append a period. -/
def formatCombination (ws : List String) : String :=
  String.intercalate " " (formatWordsAux 0 ws) ++ "."

/-- The formatting rule as the specification words it: first token
capitalized, every non-initial literal `"Je"` lowercased to `"je"`,
all other tokens unchanged, joined by single spaces, one period
appended. Used to compare `formatCombination` against the spec. -/
def specFormatCombination (ws : List String) : String :=
  match ws with
  | [] => "."
  | w :: rest =>
    String.intercalate " "
      (capitalizeFirstJS w :: rest.map (fun v => if v = "Je" then "je" else v)) ++ "."

/-! ## Random selection (`selectRandomWords`, `shuffleArray`) -/

/-- One Fisher–Yates swap: `[arr[i], arr[j]] = [arr[j], arr[i]]`.
Out-of-range indices leave the list unchanged (unreachable in use). -/
def listSwap {α : Type} (l : List α) (i j : Nat) : List α :=
  match l[i]?, l[j]? with
  | some a, some b => (l.set i b).set j a
  | _, _ => l

/-- `shuffleArray`'s loop, `for (let i = len - 1; i > 0; i--)`:
at counter `i+1` swap position `i+1` with `rand (i+1) % (i+2)`. -/
def fyAux {α : Type} (rand : Nat → Nat) : List α → Nat → List α
  | l, 0 => l
  | l, i + 1 => fyAux rand (listSwap l (i + 1) (rand (i + 1) % (i + 2))) i

/-- `CombinationGenerator.shuffleArray`: Fisher–Yates shuffle driven by
the random oracle. -/
def shuffleArray {α : Type} (rand : Nat → Nat) (l : List α) : List α :=
  fyAux rand l (l.length - 1)

/-- The picking loop of `selectRandomWords`: repeatedly remove a random
element of the shrinking copy, stopping after `count` picks or when the
copy is exhausted. -/
def selectPickAux (rand : Nat → Nat) : Nat → List String → Nat → List String
  | _, _, 0 => []
  | _, [], _ + 1 => []
  | i, w :: ws, r + 1 =>
    let idx := rand i % (w :: ws).length
    (w :: ws).getD idx "" :: selectPickAux rand (i + 1) ((w :: ws).eraseIdx idx) r

/-- `CombinationGenerator.selectRandomWords`: sample `count` words
without replacement, then fully shuffle the sample. -/
def selectRandomWords (randPick randShuffle : Nat → Nat)
    (words : List String) (count : Nat) : List String :=
  shuffleArray randShuffle (selectPickAux randPick 0 words count)

/-! ## Recent-combinations window -/

/-- `Set.prototype.add`: append unless already present. -/
def setAdd (s : List String) (x : String) : List String :=
  if x ∈ s then s else s ++ [x]

/-- `CombinationGenerator.addToRecentCombinations`: add the combination,
then drop the first-inserted member if the size bound is exceeded. -/
def addToRecentCombinations (recent : List String) (c : String) : List String :=
  if MAX_RECENT_COMBINATIONS < (setAdd recent c).length then (setAdd recent c).tail
  else setAdd recent c

/-- `generate`'s options object: `{ avoidRecent: true, maxAttempts: 5 }`. -/
structure GenConfig where
  avoidRecent : Bool
  maxAttempts : Nat
deriving DecidableEq

/-- The default configuration used by every `generate()` call. -/
def defaultGenConfig : GenConfig := ⟨true, 5⟩

/-- The retry loop of `createCombination`: sample and format; accept the
result unless repeat avoidance is on and it sits in the recent window,
in which case retry with the next attempt while fuel remains. -/
def createCombinationAux (sample : Nat → String) (avoidRecent : Bool)
    (recent : List String) : Nat → Nat → Option String
  | _, 0 => none
  | attempt, fuel + 1 =>
    let c := sample attempt
    if avoidRecent = false ∨ c ∉ recent then some c
    else createCombinationAux sample avoidRecent recent (attempt + 1) fuel

/-- `CombinationGenerator.createCombination`: run the retry loop; if all
`maxAttempts` attempts hit the recent window, take one further sample
unconditionally. The accepted combination is recorded in the window.
`sample i` stands for `formatCombination (selectRandomWords …)` at the
`i`-th attempt (formatted sentences always end in `'.'`, so the
JavaScript falsy-string checks cannot fire and are dropped). -/
def createCombination (sample : Nat → String) (cfg : GenConfig)
    (recent : List String) : String × List String :=
  let c :=
    match createCombinationAux sample cfg.avoidRecent recent 0 cfg.maxAttempts with
    | some c => c
    | none => sample cfg.maxAttempts
  (c, addToRecentCombinations recent c)

/-! ## History store (`HistoryManager`) -/

/-- A history entry `{text, note, timestamp, id}`. -/
structure HistoryEntry where
  text : String
  note : ℚ
  timestamp : Int
  id : String
deriving DecidableEq

/-- `HistoryManager.addEntry`: validate the combination and the score,
append `{text, note, timestamp, id}`, and drop the oldest entry if the
capacity bound is exceeded. `timestamp` and `id` model the values of
`Date.now()` and `generateEntryId()` at the call. -/
def addEntry (history : List HistoryEntry) (combination : String) (rating : ℚ)
    (timestamp : Int) (id : String) : List HistoryEntry :=
  if combination = "" then history
  else if rating.den ≠ 1 ∨ rating < MIN_RATING ∨ MAX_RATING < rating then history
  else if MAX_HISTORY_ENTRIES <
      (history ++ [(⟨combination, rating, timestamp, id⟩ : HistoryEntry)]).length
    then (history ++ [(⟨combination, rating, timestamp, id⟩ : HistoryEntry)]).tail
  else history ++ [(⟨combination, rating, timestamp, id⟩ : HistoryEntry)]

/-- The result of `calculateStatistics`; `none` stands for the
sentinel string `'-'` of the empty history, and `average` holds the
rational value printed by `toFixed(2)`. -/
structure Statistics where
  total : Nat
  average : Option ℚ
  best : Option ℚ
  worst : Option ℚ
deriving DecidableEq

/-- `Number.prototype.toFixed(2)` on the exact value: the integer `n`
with `n / 100` closest to `x`, ties resolved upward, divided by 100. -/
def jsToFixed2 (x : ℚ) : ℚ := (⌊x * 100 + 1 / 2⌋ : ℚ) / 100

/-- `Math.max(...notes)` for a non-empty argument list. -/
def jsMaxList : List ℚ → Option ℚ
  | [] => none
  | n :: rest => some (rest.foldl max n)

/-- `Math.min(...notes)` for a non-empty argument list. -/
def jsMinList : List ℚ → Option ℚ
  | [] => none
  | n :: rest => some (rest.foldl min n)

/-- `HistoryManager.calculateStatistics`: the sentinel record on an
empty history; otherwise the count, the `toFixed(2)` rounding of
`sum / total` and the extrema of the scores. -/
def calculateStatistics (history : List HistoryEntry) : Statistics :=
  if history.length = 0 then ⟨0, none, none, none⟩
  else
    { total := history.length
      average := some (jsToFixed2
        ((history.map (·.note)).foldl (· + ·) 0 / history.length))
      best := jsMaxList (history.map (·.note))
      worst := jsMinList (history.map (·.note)) }

/-- `HistoryManager.sortByRating`: full resort by score; the comparator
`a.note - b.note` sorts ascending, its negation descending. -/
def sortByRating (ascending : Bool) (history : List HistoryEntry) : List HistoryEntry :=
  if ascending then history.mergeSort (fun a b => decide (a.note ≤ b.note))
  else history.mergeSort (fun a b => decide (b.note ≤ a.note))

/-- `HistoryManager.randomSort`: in-place Fisher–Yates on the entries. -/
def randomSort (rand : Nat → Nat) (history : List HistoryEntry) : List HistoryEntry :=
  shuffleArray rand history

/-! ## Word selection state (`WordManager`)

The DOM word list contains exactly one element per configured word
(`validateWords` checks this coherence), so `getWordElement` succeeds
precisely on vocabulary members. -/

/-- The observable state of `WordManager`: the fixed vocabulary and the
`selectedWords` set (insertion ordered, duplicate free). -/
structure WordState where
  words : List String
  selectedWords : List String
deriving DecidableEq

/-- Outcome reported by `toggleWord`. -/
inductive ToggleOutcome where
  | errUnknownWord
  | warnLastWord
  | toggled
deriving DecidableEq

/-- `WordManager.toggleWord`: reject unknown words; reject disabling the
sole selected word with a user-facing warning; otherwise flip
membership (a re-enabled word is re-inserted at the end of the set). -/
def toggleWord (word : String) (s : WordState) : WordState × ToggleOutcome :=
  if word ∉ s.words then (s, .errUnknownWord)
  else if word ∈ s.selectedWords ∧ s.selectedWords.length = 1 then (s, .warnLastWord)
  else if word ∈ s.selectedWords then
    ({ s with selectedWords := s.selectedWords.erase word }, .toggled)
  else
    ({ s with selectedWords := s.selectedWords ++ [word] }, .toggled)

/-- `WordManager.selectAllWords`: clear, then add every word in
vocabulary order. -/
def selectAllWords (s : WordState) : WordState :=
  { s with selectedWords := s.words.foldl setAdd [] }

/-- `WordManager.resetAllWords`: add every vocabulary word to the
existing set (words already selected keep their insertion position). -/
def resetAllWords (s : WordState) : WordState :=
  { s with selectedWords := s.words.foldl setAdd s.selectedWords }

/-- `WordManager.getSelectedWords`: `Array.from(this.selectedWords)`,
the selected set in insertion order. -/
def getSelectedWords (s : WordState) : List String :=
  s.selectedWords

/-- `WordManager.getAllWords`. -/
def getAllWords (s : WordState) : List String :=
  s.words

/-- The operations mutating the selection state. -/
inductive WordOp where
  | toggle (word : String)
  | selectAll
  | resetAll
deriving DecidableEq

/-- Apply one operation. -/
def applyWordOp (s : WordState) : WordOp → WordState
  | .toggle w => (toggleWord w s).1
  | .selectAll => selectAllWords s
  | .resetAll => resetAllWords s

/-- Apply a sequence of operations. -/
def applyWordOps (s : WordState) (ops : List WordOp) : WordState :=
  ops.foldl applyWordOp s

/-- The startup state: `init` calls `selectAllWords`, so every
vocabulary word is enabled, in vocabulary order. -/
def initialWordState : WordState :=
  selectAllWords { words := CONFIG_WORDS, selectedWords := [] }

/-- A state the word manager can actually be in: reachable from the
all-enabled startup state by toggle/select-all/reset operations. -/
def ReachableWordState (s : WordState) : Prop :=
  ∃ ops : List WordOp, applyWordOps initialWordState ops = s

/-! ## Combination engine, rating gate and history sink

`main.js` wires the managers together (`setRatingManager` /
`setCombinationGenerator`), so both back-references are non-null. -/

/-- The combined mutable state of `CombinationGenerator`,
`RatingManager` and `HistoryManager`. `pendingReveal` models a
scheduled `animationTimeout` chain that has not yet reached
`onAnimationComplete`; `checkedRating` models the checked radio input
that `getCurrentSelectedRating()` reads back from the DOM. -/
structure AppState where
  currentCombination : String
  isCombinationGenerated : Bool
  isAnimationComplete : Bool
  isGenerating : Bool
  pendingReveal : Bool
  recentCombinations : List String
  isRatingEnabled : Bool
  currentRating : Option Int
  checkedRating : Option Int
  history : List HistoryEntry
deriving DecidableEq

/-- The state after page load: nothing generated, rating disabled
(`RatingManager.init` calls `disableRating`), empty stores. -/
def initialAppState : AppState :=
  { currentCombination := ""
    isCombinationGenerated := false
    isAnimationComplete := false
    isGenerating := false
    pendingReveal := false
    recentCombinations := []
    isRatingEnabled := false
    currentRating := none
    checkedRating := none
    history := [] }

/-- `RatingManager.disableRating`: disable the gate, uncheck every
radio input, clear the selected score. -/
def disableRating (s : AppState) : AppState :=
  { s with isRatingEnabled := false, checkedRating := none, currentRating := none }

/-- `RatingManager.enableRating`. -/
def enableRating (s : AppState) : AppState :=
  { s with isRatingEnabled := true }

/-- `CombinationGenerator.resetCombinationState`: cancel any pending
reveal, clear the combination and reset all three flags — including
`isGenerating`, which `generate()` had just set. -/
def resetCombinationState (s : AppState) : AppState :=
  { s with pendingReveal := false
           currentCombination := ""
           isCombinationGenerated := false
           isAnimationComplete := false
           isGenerating := false }

/-- Outcome of the synchronous part of `generate()`. -/
inductive GenerateOutcome where
  | rejectedAlreadyGenerating
  | rejectedNoWords
  | started
deriving DecidableEq

/-- The synchronous body of `CombinationGenerator.generate`: reject if
`isGenerating` is set; reject an empty candidate pool; otherwise set
`isGenerating`, reset the combination state (which clears
`isGenerating` again), disable the rating gate, create a combination
through the retry loop and start the reveal animation. `sample i` is
the formatted result of the `i`-th sampling attempt (the randomness,
pool and resolved word count folded into one oracle). -/
def generateStep (sample : Nat → String) (words : List String)
    (s : AppState) : AppState × GenerateOutcome :=
  if s.isGenerating then (s, .rejectedAlreadyGenerating)
  else if words.isEmpty then (s, .rejectedNoWords)
  else
    let s1 := { s with isGenerating := true }
    let s2 := resetCombinationState s1
    let s3 := disableRating s2
    let cr := createCombination sample defaultGenConfig s3.recentCombinations
    let s4 := { s3 with currentCombination := cr.1, recentCombinations := cr.2 }
    ({ s4 with pendingReveal := true }, .started)

/-- `CombinationGenerator.onAnimationComplete`, fired when the last
scheduled character has been revealed: set both completion flags,
clear `isGenerating` and enable the rating gate. -/
def finishReveal (s : AppState) : AppState :=
  enableRating { s with isAnimationComplete := true
                        isCombinationGenerated := true
                        isGenerating := false
                        pendingReveal := false }

/-- `CombinationGenerator.isCombinationReady`. -/
def isCombinationReady (s : AppState) : Bool :=
  s.isCombinationGenerated && s.isAnimationComplete

/-- `CombinationGenerator.isAnimationFinished`. -/
def isAnimationFinished (s : AppState) : Bool :=
  s.isAnimationComplete

/-- `CombinationGenerator.isCurrentlyGenerating`. -/
def isCurrentlyGenerating (s : AppState) : Bool :=
  s.isGenerating

/-- `RatingManager.isCombinationReadyForRating` (the generator
back-reference is connected, hence non-null). -/
def isCombinationReadyForRating (s : AppState) : Bool :=
  isCombinationReady s && isAnimationFinished s && !isCurrentlyGenerating s

/-- Outcome of `submitRating`. -/
inductive SubmitOutcome where
  | warnNotFinished
  | warnChooseRating
  | warnNotEnabled
  | errorThrown
  | success
deriving DecidableEq

/-- `RatingManager.submitRating` (with `validateSubmissionConditions`
inlined in source order): warn unless the combination is ready, a
score is selected and the gate is enabled; then write the entry to the
history store and disable the gate. `timestamp` and `id` model
`Date.now()` and the generated entry id. -/
def submitRating (timestamp : Int) (id : String) (s : AppState) :
    AppState × SubmitOutcome :=
  if ¬isCombinationReadyForRating s then (s, .warnNotFinished)
  else
    match s.checkedRating with
    | none => (s, .warnChooseRating)
    | some rating =>
      if rating = 0 then (s, .warnChooseRating)
      else if ¬s.isRatingEnabled then (s, .warnNotEnabled)
      else if s.currentCombination = "" then (s, .errorThrown)
      else
        let s1 := { s with
          history := addEntry s.history s.currentCombination (rating : ℚ) timestamp id }
        (disableRating s1, .success)

/-- The composite sampler used by `generate()`: the `i`-th attempt
samples, shuffles and formats in one step. -/
def genSample (rsel rshuf : Nat → Nat → Nat) (words : List String) (k : Nat)
    (i : Nat) : String :=
  formatCombination (selectRandomWords (rsel i) (rshuf i) words k)

/-! ## Permutation lemmas for the Fisher–Yates shuffle -/

theorem cons_set_perm {α : Type} (x : α) :
    ∀ (xs : List α) (k : Nat) (b : α), xs[k]? = some b →
      b :: xs.set k x ~ x :: xs := by
  intro xs
  induction xs with
  | nil => intro k b h; simp at h
  | cons y ys ih =>
    intro k b h
    cases k with
    | zero =>
      simp only [List.getElem?_cons_zero, Option.some.injEq] at h
      subst h
      exact List.Perm.swap x y ys
    | succ k =>
      simp only [List.getElem?_cons_succ] at h
      calc b :: (y :: ys).set (k + 1) x
          = b :: y :: ys.set k x := by simp
        _ ~ y :: b :: ys.set k x := List.Perm.swap y b _
        _ ~ y :: x :: ys := (ih k b h).cons y
        _ ~ x :: y :: ys := List.Perm.swap x y ys

theorem set_set_perm {α : Type} :
    ∀ (l : List α) (i j : Nat) (a b : α), l[i]? = some a → l[j]? = some b →
      (l.set i b).set j a ~ l := by
  intro l
  induction l with
  | nil => intro i j a b h _; simp at h
  | cons x xs ih =>
    intro i j a b hi hj
    cases i with
    | zero =>
      simp only [List.getElem?_cons_zero, Option.some.injEq] at hi
      subst hi
      cases j with
      | zero =>
        simp only [List.getElem?_cons_zero, Option.some.injEq] at hj
        subst hj
        simp
      | succ j =>
        simp only [List.getElem?_cons_succ] at hj
        simpa using cons_set_perm x xs j b hj
    | succ i =>
      simp only [List.getElem?_cons_succ] at hi
      cases j with
      | zero =>
        simp only [List.getElem?_cons_zero, Option.some.injEq] at hj
        subst hj
        simpa using cons_set_perm x xs i a hi
      | succ j =>
        simp only [List.getElem?_cons_succ] at hj
        simpa using (ih i j a b hi hj).cons x

theorem listSwap_perm {α : Type} (l : List α) (i j : Nat) : listSwap l i j ~ l := by
  unfold listSwap
  cases hi : l[i]? with
  | none => exact List.Perm.refl l
  | some a =>
    cases hj : l[j]? with
    | none => exact List.Perm.refl l
    | some b => exact set_set_perm l i j a b hi hj

theorem fyAux_perm {α : Type} (rand : Nat → Nat) :
    ∀ (i : Nat) (l : List α), fyAux rand l i ~ l := by
  intro i
  induction i with
  | zero => intro l; exact List.Perm.refl l
  | succ i ih =>
    intro l
    exact (ih _).trans (listSwap_perm l (i + 1) (rand (i + 1) % (i + 2)))

theorem shuffleArray_perm {α : Type} (rand : Nat → Nat) (l : List α) :
    shuffleArray rand l ~ l :=
  fyAux_perm rand (l.length - 1) l

/-! ## Sampling-without-replacement lemmas -/

theorem getD_cons_eraseIdx_perm {α : Type} (d : α) :
    ∀ (l : List α) (idx : Nat), idx < l.length →
      l.getD idx d :: l.eraseIdx idx ~ l := by
  intro l
  induction l with
  | nil => intro idx h; simp at h
  | cons x xs ih =>
    intro idx h
    cases idx with
    | zero => simp
    | succ idx =>
      simp only [List.length_cons, Nat.add_lt_add_iff_right] at h
      calc (x :: xs).getD (idx + 1) d :: (x :: xs).eraseIdx (idx + 1)
          = xs.getD idx d :: x :: xs.eraseIdx idx := by simp [List.getD]
        _ ~ x :: xs.getD idx d :: xs.eraseIdx idx := List.Perm.swap x _ _
        _ ~ x :: xs := (ih idx h).cons x

theorem selectPickAux_subperm (rand : Nat → Nat) :
    ∀ (count i : Nat) (l : List String), selectPickAux rand i l count <+~ l := by
  intro count
  induction count with
  | zero =>
    intro i l
    have hz : selectPickAux rand i l 0 = [] := by cases l <;> rfl
    rw [hz]
    exact List.nil_subperm
  | succ r ih =>
    intro i l
    match l with
    | [] =>
      rw [show selectPickAux rand i [] (r + 1) = [] from rfl]
    | w :: ws =>
      have hlt : rand i % (w :: ws).length < (w :: ws).length :=
        Nat.mod_lt _ (by simp)
      have hperm := getD_cons_eraseIdx_perm "" (w :: ws) (rand i % (w :: ws).length) hlt
      have hsub : (w :: ws).getD (rand i % (w :: ws).length) "" ::
          selectPickAux rand (i + 1) ((w :: ws).eraseIdx (rand i % (w :: ws).length)) r <+~
          (w :: ws).getD (rand i % (w :: ws).length) "" ::
          (w :: ws).eraseIdx (rand i % (w :: ws).length) :=
        (List.subperm_cons _).mpr (ih (i + 1) _)
      exact (hsub.trans hperm.subperm)

theorem selectPickAux_length (rand : Nat → Nat) :
    ∀ (count i : Nat) (l : List String), count ≤ l.length →
      (selectPickAux rand i l count).length = count := by
  intro count
  induction count with
  | zero => intro i l _; simp [selectPickAux]
  | succ r ih =>
    intro i l h
    match l with
    | [] => simp at h
    | w :: ws =>
      have hlt : rand i % (w :: ws).length < (w :: ws).length :=
        Nat.mod_lt _ (by simp)
      have herase : ((w :: ws).eraseIdx (rand i % (w :: ws).length)).length =
          (w :: ws).length - 1 := by
        rw [List.length_eraseIdx, if_pos hlt]
      have hr : r ≤ ((w :: ws).eraseIdx (rand i % (w :: ws).length)).length := by
        omega
      simp only [selectPickAux, List.length_cons] at hr ⊢
      rw [ih (i + 1) _ hr]

theorem selectRandomWords_spec (randPick randShuffle : Nat → Nat)
    (words : List String) (count : Nat)
    (hnd : words.Nodup) (hk : count ≤ words.length) :
    (selectRandomWords randPick randShuffle words count).length = count ∧
    (selectRandomWords randPick randShuffle words count).Nodup ∧
    ∀ w ∈ selectRandomWords randPick randShuffle words count, w ∈ words := by
  have hperm : selectRandomWords randPick randShuffle words count ~
      selectPickAux randPick 0 words count :=
    shuffleArray_perm randShuffle _
  have hsub : selectPickAux randPick 0 words count <+~ words :=
    selectPickAux_subperm randPick count 0 words
  obtain ⟨l', hl'perm, hl'sub⟩ := hsub
  have hnodup : (selectPickAux randPick 0 words count).Nodup :=
    hl'perm.nodup_iff.mp (hl'sub.nodup hnd)
  refine ⟨?_, hperm.nodup_iff.mpr hnodup, ?_⟩
  · rw [hperm.length_eq, selectPickAux_length randPick count 0 words hk]
  · intro w hw
    exact (selectPickAux_subperm randPick count 0 words).subset (hperm.subset hw)

/-! ## Formatting lemmas -/

theorem formatWordsAux_succ :
    ∀ (ws : List String) (i : Nat),
      formatWordsAux (i + 1) ws = ws.map (fun v => if v = "Je" then "je" else v) := by
  intro ws
  induction ws with
  | nil => intro i; simp [formatWordsAux]
  | cons w rest ih =>
    intro i
    simp only [formatWordsAux, List.map_cons, Nat.succ_ne_zero, if_false]
    rw [ih (i + 1)]

/-- `formatCombination` implements the specification's formatting rule. -/
theorem formatCombination_eq_spec (ws : List String) :
    formatCombination ws = specFormatCombination ws := by
  cases ws with
  | nil => rfl
  | cons w rest =>
    simp [formatCombination, specFormatCombination, formatWordsAux, formatWordsAux_succ]

/-! ## Retry-loop lemmas -/

theorem createCombinationAux_all_recent (sample : Nat → String) (recent : List String) :
    ∀ (fuel attempt : Nat), (∀ t, t < fuel → sample (attempt + t) ∈ recent) →
      createCombinationAux sample true recent attempt fuel = none := by
  intro fuel
  induction fuel with
  | zero => intro attempt _; rfl
  | succ fuel ih =>
    intro attempt h
    have h0 : sample attempt ∈ recent := by
      simpa using h 0 (Nat.succ_pos fuel)
    simp only [createCombinationAux, if_neg, Bool.true_eq_false, false_or]
    rw [if_neg (by simpa using h0)]
    apply ih
    intro t ht
    have := h (t + 1) (by omega)
    simpa [Nat.add_assoc, Nat.add_comm 1 t] using this

theorem createCombinationAux_first_fresh (sample : Nat → String) (recent : List String) :
    ∀ (fuel attempt t : Nat), t < fuel → sample (attempt + t) ∉ recent →
      (∀ u, u < t → sample (attempt + u) ∈ recent) →
      createCombinationAux sample true recent attempt fuel =
        some (sample (attempt + t)) := by
  intro fuel
  induction fuel with
  | zero => intro attempt t ht _ _; omega
  | succ fuel ih =>
    intro attempt t ht hfresh hprev
    cases t with
    | zero =>
      simp only [Nat.add_zero] at hfresh
      simp [createCombinationAux, hfresh]
    | succ t =>
      have h0 : sample attempt ∈ recent := by
        simpa using hprev 0 (Nat.succ_pos t)
      simp only [createCombinationAux, Bool.true_eq_false, false_or]
      rw [if_neg (by simpa using h0)]
      have := ih (attempt + 1) t (by omega) (by
          simpa [Nat.add_assoc, Nat.add_comm 1 t] using hfresh)
        (by
          intro u hu
          have := hprev (u + 1) (by omega)
          simpa [Nat.add_assoc, Nat.add_comm 1 u] using this)
      have harg : attempt + 1 + t = attempt + (t + 1) := by omega
      rw [this, harg]

theorem createCombinationAux_mem (sample : Nat → String) (avoidRecent : Bool)
    (recent : List String) :
    ∀ (fuel attempt : Nat) (c : String),
      createCombinationAux sample avoidRecent recent attempt fuel = some c →
      ∃ t, t < fuel ∧ c = sample (attempt + t) := by
  intro fuel
  induction fuel with
  | zero => intro attempt c h; simp [createCombinationAux] at h
  | succ fuel ih =>
    intro attempt c h
    simp only [createCombinationAux] at h
    split at h
    · exact ⟨0, Nat.succ_pos fuel, by simpa using (Option.some.injEq _ _ ▸ h).symm⟩
    · obtain ⟨t, ht, hc⟩ := ih (attempt + 1) c h
      exact ⟨t + 1, by omega, by simpa [Nat.add_assoc, Nat.add_comm 1 t] using hc⟩

/-- Every combination `createCombination` returns is one of the
(at most `maxAttempts + 1`) formatted samples. -/
theorem createCombination_is_sample (sample : Nat → String) (cfg : GenConfig)
    (recent : List String) :
    ∃ i, i ≤ cfg.maxAttempts ∧
      (createCombination sample cfg recent).1 = sample i := by
  unfold createCombination
  cases h : createCombinationAux sample cfg.avoidRecent recent 0 cfg.maxAttempts with
  | none => exact ⟨cfg.maxAttempts, le_refl _, rfl⟩
  | some c =>
    obtain ⟨t, ht, hc⟩ := createCombinationAux_mem sample cfg.avoidRecent recent
      cfg.maxAttempts 0 c h
    exact ⟨t, Nat.le_of_lt ht, by simpa using hc⟩

/-! ## Recent-window lemmas -/

theorem mem_setAdd {s : List String} {x y : String} :
    y ∈ setAdd s x ↔ y ∈ s ∨ y = x := by
  unfold setAdd
  split
  · rename_i h
    exact ⟨Or.inl, fun hy => hy.elim id (fun e => e ▸ h)⟩
  · simp

theorem setAdd_nodup {s : List String} {x : String} (h : s.Nodup) :
    (setAdd s x).Nodup := by
  unfold setAdd
  split
  · exact h
  · rename_i hx
    simp [List.nodup_append, h, hx]

theorem addToRecentCombinations_length {recent : List String} {c : String}
    (h : recent.length ≤ MAX_RECENT_COMBINATIONS) :
    (addToRecentCombinations recent c).length ≤ MAX_RECENT_COMBINATIONS := by
  unfold addToRecentCombinations setAdd
  by_cases hc : c ∈ recent
  · rw [if_pos hc]
    split
    · simp only [List.length_tail]
      omega
    · exact h
  · rw [if_neg hc]
    split
    · simp only [List.length_tail, List.length_append, List.length_singleton]
      omega
    · rename_i hle
      simp only [List.length_append, List.length_singleton] at hle ⊢
      omega

theorem mem_addToRecentCombinations {recent : List String} {c : String}
    (h : recent.length ≤ MAX_RECENT_COMBINATIONS) :
    c ∈ addToRecentCombinations recent c := by
  unfold addToRecentCombinations setAdd
  by_cases hc : c ∈ recent
  · rw [if_pos hc, if_neg (Nat.not_lt.mpr h)]
    exact hc
  · rw [if_neg hc]
    split
    · rename_i hgt
      cases recent with
      | nil => simp [MAX_RECENT_COMBINATIONS] at hgt
      | cons a rest => simp
    · simp

theorem addToRecentCombinations_evict {recent : List String} {c : String}
    (hc : c ∉ recent) (hlen : recent.length = MAX_RECENT_COMBINATIONS) :
    addToRecentCombinations recent c = recent.tail ++ [c] := by
  unfold addToRecentCombinations setAdd
  rw [if_neg hc]
  rw [if_pos (by simp [hlen, MAX_RECENT_COMBINATIONS])]
  cases recent with
  | nil => simp [MAX_RECENT_COMBINATIONS] at hlen
  | cons a rest => simp

/-! ## Statistics lemmas -/

theorem foldl_add_eq_sum (l : List ℚ) : ∀ a : ℚ, l.foldl (· + ·) a = a + l.sum := by
  induction l with
  | nil => intro a; simp
  | cons x xs ih =>
    intro a
    rw [List.foldl_cons, ih (a + x), List.sum_cons]
    ring

theorem foldl_max_spec :
    ∀ (rest : List ℚ) (n : ℚ),
      (rest.foldl max n = n ∨ rest.foldl max n ∈ rest) ∧
      n ≤ rest.foldl max n ∧ ∀ x ∈ rest, x ≤ rest.foldl max n := by
  intro rest
  induction rest with
  | nil => intro n; simp
  | cons y ys ih =>
    intro n
    obtain ⟨hmem, hle, hall⟩ := ih (max n y)
    rw [List.foldl_cons]
    refine ⟨?_, le_trans (le_max_left n y) hle, ?_⟩
    · rcases hmem with hm | hm
      · rcases max_choice n y with hc | hc
        · exact Or.inl (by rw [hm, hc])
        · exact Or.inr (by rw [hm, hc]; exact List.mem_cons_self y ys)
      · exact Or.inr (List.mem_cons_of_mem y hm)
    · intro x hx
      rcases List.mem_cons.mp hx with rfl | hx
      · exact le_trans (le_max_right _ _) hle
      · exact hall x hx

theorem foldl_min_spec :
    ∀ (rest : List ℚ) (n : ℚ),
      (rest.foldl min n = n ∨ rest.foldl min n ∈ rest) ∧
      rest.foldl min n ≤ n ∧ ∀ x ∈ rest, rest.foldl min n ≤ x := by
  intro rest
  induction rest with
  | nil => intro n; simp
  | cons y ys ih =>
    intro n
    obtain ⟨hmem, hle, hall⟩ := ih (min n y)
    rw [List.foldl_cons]
    refine ⟨?_, le_trans hle (min_le_left n y), ?_⟩
    · rcases hmem with hm | hm
      · rcases min_choice n y with hc | hc
        · exact Or.inl (by rw [hm, hc])
        · exact Or.inr (by rw [hm, hc]; exact List.mem_cons_self y ys)
      · exact Or.inr (List.mem_cons_of_mem y hm)
    · intro x hx
      rcases List.mem_cons.mp hx with rfl | hx
      · exact le_trans hle (min_le_right _ _)
      · exact hall x hx

theorem jsMaxList_spec (l : List ℚ) (h : l ≠ []) :
    ∃ m, jsMaxList l = some m ∧ m ∈ l ∧ ∀ x ∈ l, x ≤ m := by
  cases l with
  | nil => exact absurd rfl h
  | cons n rest =>
    obtain ⟨hmem, hle, hall⟩ := foldl_max_spec rest n
    refine ⟨rest.foldl max n, rfl, ?_, ?_⟩
    · rcases hmem with hm | hm
      · rw [hm]
        exact List.mem_cons_self n rest
      · exact List.mem_cons_of_mem n hm
    · intro x hx
      rcases List.mem_cons.mp hx with rfl | hx
      · exact hle
      · exact hall x hx

theorem jsMinList_spec (l : List ℚ) (h : l ≠ []) :
    ∃ m, jsMinList l = some m ∧ m ∈ l ∧ ∀ x ∈ l, m ≤ x := by
  cases l with
  | nil => exact absurd rfl h
  | cons n rest =>
    obtain ⟨hmem, hle, hall⟩ := foldl_min_spec rest n
    refine ⟨rest.foldl min n, rfl, ?_, ?_⟩
    · rcases hmem with hm | hm
      · rw [hm]
        exact List.mem_cons_self n rest
      · exact List.mem_cons_of_mem n hm
    · intro x hx
      rcases List.mem_cons.mp hx with rfl | hx
      · exact hle
      · exact hall x hx

theorem jsMaxList_perm {l l' : List ℚ} (h : l ~ l') :
    jsMaxList l = jsMaxList l' := by
  cases l with
  | nil =>
    rw [(List.Perm.eq_nil h.symm : l' = [])]
  | cons n rest =>
    have hne : (n :: rest) ≠ [] := by simp
    have hne' : l' ≠ [] := by
      intro he
      exact hne (List.Perm.eq_nil (he ▸ h))
    obtain ⟨m, hm, hmem, hall⟩ := jsMaxList_spec (n :: rest) hne
    obtain ⟨m', hm', hmem', hall'⟩ := jsMaxList_spec l' hne'
    have h1 : m ≤ m' := hall' m (h.mem_iff.mp hmem)
    have h2 : m' ≤ m := hall m' (h.mem_iff.mpr hmem')
    rw [hm, hm', le_antisymm h2 h1]

theorem jsMinList_perm {l l' : List ℚ} (h : l ~ l') :
    jsMinList l = jsMinList l' := by
  cases l with
  | nil =>
    rw [(List.Perm.eq_nil h.symm : l' = [])]
  | cons n rest =>
    have hne : (n :: rest) ≠ [] := by simp
    have hne' : l' ≠ [] := by
      intro he
      exact hne (List.Perm.eq_nil (he ▸ h))
    obtain ⟨m, hm, hmem, hall⟩ := jsMinList_spec (n :: rest) hne
    obtain ⟨m', hm', hmem', hall'⟩ := jsMinList_spec l' hne'
    have h1 : m' ≤ m := hall' m (h.mem_iff.mp hmem)
    have h2 : m ≤ m' := hall m' (h.mem_iff.mpr hmem')
    rw [hm, hm', le_antisymm h2 h1]

/-- `calculateStatistics` only depends on the multiset of entries. -/
theorem calculateStatistics_perm {h h' : List HistoryEntry} (hp : h ~ h') :
    calculateStatistics h = calculateStatistics h' := by
  unfold calculateStatistics
  have hlen : h.length = h'.length := hp.length_eq
  by_cases hz : h.length = 0
  · rw [if_pos hz, if_pos (hlen ▸ hz)]
  · rw [if_neg hz, if_neg (hlen ▸ hz)]
    have hmap : (h.map (·.note)) ~ (h'.map (·.note)) := hp.map _
    have hsum : (h.map (·.note)).foldl (· + ·) 0 =
        (h'.map (·.note)).foldl (· + ·) 0 := by
      rw [foldl_add_eq_sum, foldl_add_eq_sum, hmap.sum_eq]
    simp only [Statistics.mk.injEq]
    exact ⟨hlen, by rw [hsum, hlen], jsMaxList_perm hmap, jsMinList_perm hmap⟩

/-! ## Word-selection lemmas -/

theorem mem_foldl_setAdd (y : String) :
    ∀ (ws acc : List String), y ∈ ws.foldl setAdd acc ↔ y ∈ acc ∨ y ∈ ws := by
  intro ws
  induction ws with
  | nil => intro acc; simp
  | cons w ws ih =>
    intro acc
    rw [List.foldl_cons, ih (setAdd acc w)]
    constructor
    · rintro (h | h)
      · rcases mem_setAdd.mp h with h | h
        · exact Or.inl h
        · exact Or.inr (h ▸ List.mem_cons_self w ws)
      · exact Or.inr (List.mem_cons_of_mem w h)
    · rintro (h | h)
      · exact Or.inl (mem_setAdd.mpr (Or.inl h))
      · rcases List.mem_cons.mp h with h | h
        · exact Or.inl (mem_setAdd.mpr (Or.inr h))
        · exact Or.inr h

theorem foldl_setAdd_nodup :
    ∀ (ws acc : List String), acc.Nodup → (ws.foldl setAdd acc).Nodup := by
  intro ws
  induction ws with
  | nil => intro acc h; exact h
  | cons w ws ih =>
    intro acc h
    rw [List.foldl_cons]
    exact ih (setAdd acc w) (setAdd_nodup h)

theorem foldl_setAdd_of_fresh :
    ∀ (ws acc : List String), ws.Nodup → (∀ w ∈ ws, w ∉ acc) →
      ws.foldl setAdd acc = acc ++ ws := by
  intro ws
  induction ws with
  | nil => intro acc _ _; simp
  | cons w ws ih =>
    intro acc hnd hfresh
    rw [List.foldl_cons]
    have hw : w ∉ acc := hfresh w (List.mem_cons_self w ws)
    have hstep : setAdd acc w = acc ++ [w] := by
      unfold setAdd
      rw [if_neg hw]
    rw [hstep, ih (acc ++ [w]) (List.Nodup.of_cons hnd)]
    · simp
    · intro v hv
      simp only [List.mem_append, List.mem_singleton]
      rintro (h | h)
      · exact hfresh v (List.mem_cons_of_mem w hv) h
      · exact (List.nodup_cons.mp hnd).1 (h ▸ hv)

/-- The well-formedness invariant of the word-selection state. -/
def WordInv (s : WordState) : Prop :=
  s.words = CONFIG_WORDS ∧ s.selectedWords.Nodup ∧
  (∀ w ∈ s.selectedWords, w ∈ s.words) ∧ 1 ≤ s.selectedWords.length

theorem config_words_nodup : CONFIG_WORDS.Nodup := by decide

theorem selectAllWords_selected (s : WordState) (hw : s.words.Nodup) :
    (selectAllWords s).selectedWords = s.words := by
  unfold selectAllWords
  simpa using foldl_setAdd_of_fresh s.words [] hw (by simp)

theorem wordInv_initial : WordInv initialWordState := by
  refine ⟨rfl, ?_, ?_, ?_⟩ <;>
    rw [show initialWordState.selectedWords = CONFIG_WORDS from
      selectAllWords_selected _ config_words_nodup]
  · exact config_words_nodup
  · intro w hw; exact hw
  · decide

theorem wordInv_applyWordOp (s : WordState) (op : WordOp) (h : WordInv s) :
    WordInv (applyWordOp s op) := by
  obtain ⟨hwords, hnd, hmem, hlen⟩ := h
  cases op with
  | toggle w =>
    simp only [applyWordOp, toggleWord]
    split
    · exact ⟨hwords, hnd, hmem, hlen⟩
    · split
      · exact ⟨hwords, hnd, hmem, hlen⟩
      · split
        · rename_i hin hnotsole hsel
          refine ⟨hwords, hnd.erase w, ?_, ?_⟩
          · intro v hv
            exact hmem v (List.mem_of_mem_erase hv)
          · rw [List.length_erase_of_mem hsel]
            have : s.selectedWords.length ≠ 1 := fun he => hnotsole ⟨hsel, he⟩
            omega
        · rename_i hin hnotsole hsel
          refine ⟨hwords, ?_, ?_, ?_⟩
          · simp [List.nodup_append, hnd, hsel]
          · intro v hv
            rcases List.mem_append.mp hv with hv | hv
            · exact hmem v hv
            · rw [List.mem_singleton.mp hv]
              exact not_not.mp hin
          · simp only [List.length_append, List.length_singleton]
            omega
  | selectAll =>
    refine ⟨hwords, ?_, ?_, ?_⟩ <;>
      rw [show (applyWordOp s .selectAll).selectedWords = s.words from
        selectAllWords_selected s (hwords ▸ config_words_nodup)]
    · exact hwords ▸ config_words_nodup
    · intro w hw; exact hw
    · rw [hwords]; decide
  | resetAll =>
    refine ⟨hwords, foldl_setAdd_nodup s.words s.selectedWords hnd, ?_, ?_⟩
    · intro v hv
      rcases (mem_foldl_setAdd v s.words s.selectedWords).mp hv with hv | hv
      · exact hmem v hv
      · exact hv
    · rcases List.exists_mem_of_length_pos hlen with ⟨x, hx⟩
      have : x ∈ s.words.foldl setAdd s.selectedWords :=
        (mem_foldl_setAdd x s.words s.selectedWords).mpr (Or.inl hx)
      exact List.length_pos.mpr (List.ne_nil_of_mem this)

theorem wordInv_applyWordOps (ops : List WordOp) :
    ∀ (s : WordState), WordInv s → WordInv (applyWordOps s ops) := by
  induction ops with
  | nil => intro s h; exact h
  | cons op ops ih =>
    intro s h
    exact ih (applyWordOp s op) (wordInv_applyWordOp s op h)

theorem wordInv_reachable {s : WordState} (h : ReachableWordState s) : WordInv s := by
  obtain ⟨ops, rfl⟩ := h
  exact wordInv_applyWordOps ops initialWordState wordInv_initial

/-! ## History-store lemmas -/

theorem tail_append_singleton {α : Type} (l : List α) (e : α) (h : l ≠ []) :
    (l ++ [e]).tail = l.tail ++ [e] := by
  cases l with
  | nil => exact absurd rfl h
  | cons a rest => simp

theorem addEntry_length_le (history : List HistoryEntry) (t : String) (r : ℚ)
    (ts : Int) (id : String) (h : history.length ≤ MAX_HISTORY_ENTRIES) :
    (addEntry history t r ts id).length ≤ MAX_HISTORY_ENTRIES := by
  unfold addEntry
  split
  · exact h
  · split
    · exact h
    · split
      · simp only [List.length_tail, List.length_append, List.length_singleton]
        omega
      · rename_i hle
        simp only [List.length_append, List.length_singleton] at hle ⊢
        omega

/-! ## Claim theorems -/

/-- C1: every `submitRating()` call made while the reveal animation has
not completed (`isAnimationFinished()` is false) fails with the
"generation not finished" warning and leaves the whole state — in
particular the history store's entry list — unchanged. -/
theorem submitRating_blocked_before_reveal (s : AppState) (ts : Int) (id : String)
    (h : isAnimationFinished s = false) :
    submitRating ts id s = (s, .warnNotFinished) := by
  have hr : isCombinationReadyForRating s = false := by
    simp only [isAnimationFinished] at h
    simp [isCombinationReadyForRating, isCombinationReady, isAnimationFinished, h]
  simp [submitRating, hr]

/-- Witness for C1 at the startup state. -/
theorem submitRating_blocked_before_reveal_witness :
    isAnimationFinished initialAppState = false ∧
    submitRating 0 "entry_w1" initialAppState = (initialAppState, .warnNotFinished) :=
  ⟨by decide, submitRating_blocked_before_reveal initialAppState 0 "entry_w1" (by decide)⟩

/-- C4: in every reachable word-selection state, toggling the sole
selected word is rejected with the user-facing warning and leaves the
state unchanged, and consequently at least one word is always
selected. -/
theorem sole_selected_word_toggle_rejected (s : WordState)
    (h : ReachableWordState s) :
    (∀ w, getSelectedWords s = [w] → toggleWord w s = (s, .warnLastWord)) ∧
    1 ≤ (getSelectedWords s).length := by
  obtain ⟨hwords, hnd, hmem, hlen⟩ := wordInv_reachable h
  refine ⟨?_, hlen⟩
  intro w hw
  have hw' : s.selectedWords = [w] := hw
  have hw_words : w ∈ s.words := hmem w (by rw [hw']; simp)
  unfold toggleWord
  rw [if_neg (by simpa using hw_words)]
  rw [if_pos ⟨by rw [hw']; simp, by rw [hw']; simp⟩]

/-- The toggle sequence disabling every vocabulary word but the last. -/
def c4WitnessOps : List WordOp := CONFIG_WORDS.dropLast.map WordOp.toggle

/-- A reachable state with a single selected word. -/
def c4WitnessState : WordState := applyWordOps initialWordState c4WitnessOps

set_option maxRecDepth 4000 in
/-- Witness for C4: with only `"grandissant"` selected, toggling it is
rejected. -/
theorem sole_selected_word_toggle_rejected_witness :
    getSelectedWords c4WitnessState = ["grandissant"] ∧
    toggleWord "grandissant" c4WitnessState = (c4WitnessState, .warnLastWord) :=
  ⟨by decide,
    (sole_selected_word_toggle_rejected c4WitnessState ⟨c4WitnessOps, rfl⟩).1
      "grandissant" (by decide)⟩

/-- C5: the history store never exceeds its 1000-entry bound; a valid
`addEntry` against a full store appends the new entry and drops the
oldest one; an `addEntry` with an empty text or a non-integer or
out-of-range score is a no-op; and any sequence of `addEntry` calls
from the empty store stays within the bound. -/
theorem addEntry_capacity_bound (history : List HistoryEntry) (t : String) (r : ℚ)
    (ts : Int) (id : String) :
    (history.length ≤ MAX_HISTORY_ENTRIES →
      (addEntry history t r ts id).length ≤ MAX_HISTORY_ENTRIES) ∧
    (history.length = MAX_HISTORY_ENTRIES → t ≠ "" → r.den = 1 →
      MIN_RATING ≤ r → r ≤ MAX_RATING →
      addEntry history t r ts id = history.tail ++ [⟨t, r, ts, id⟩]) ∧
    (t = "" ∨ r.den ≠ 1 ∨ r < MIN_RATING ∨ MAX_RATING < r →
      addEntry history t r ts id = history) ∧
    ∀ calls : List (String × ℚ × Int × String),
      (calls.foldl (fun h c => addEntry h c.1 c.2.1 c.2.2.1 c.2.2.2) []).length ≤
        MAX_HISTORY_ENTRIES := by
  refine ⟨addEntry_length_le history t r ts id, ?_, ?_, ?_⟩
  · intro hfull ht hden hmin hmax
    have hne : history ≠ [] := by
      intro he
      rw [he] at hfull
      simp [MAX_HISTORY_ENTRIES] at hfull
    unfold addEntry
    rw [if_neg ht, if_neg (by push_neg; exact ⟨hden, hmin, hmax⟩)]
    rw [if_pos (by simp [hfull])]
    exact tail_append_singleton history _ hne
  · intro hbad
    unfold addEntry
    rcases hbad with ht | hbad
    · rw [if_pos ht]
    · by_cases ht : t = ""
      · rw [if_pos ht]
      · rw [if_neg ht, if_pos hbad]
  · intro calls
    have hgen : ∀ (cs : List (String × ℚ × Int × String)) (h : List HistoryEntry),
        h.length ≤ MAX_HISTORY_ENTRIES →
        (cs.foldl (fun h c => addEntry h c.1 c.2.1 c.2.2.1 c.2.2.2) h).length ≤
          MAX_HISTORY_ENTRIES := by
      intro cs
      induction cs with
      | nil => intro h hh; exact hh
      | cons c cs ih =>
        intro h hh
        exact ih _ (addEntry_length_le h c.1 c.2.1 c.2.2.1 c.2.2.2 hh)
    exact hgen calls [] (by simp [MAX_HISTORY_ENTRIES])

/-- Witness for C5: adding a valid entry to a full 1000-entry store
appends it and evicts the oldest entry. -/
theorem addEntry_capacity_bound_witness :
    (List.replicate MAX_HISTORY_ENTRIES
        (⟨"x.", 5, 0, "seed"⟩ : HistoryEntry)).length = MAX_HISTORY_ENTRIES ∧
    addEntry (List.replicate MAX_HISTORY_ENTRIES ⟨"x.", 5, 0, "seed"⟩) "y." 7 1 "fresh" =
      (List.replicate MAX_HISTORY_ENTRIES
        (⟨"x.", 5, 0, "seed"⟩ : HistoryEntry)).tail ++ [⟨"y.", 7, 1, "fresh"⟩] :=
  ⟨by simp,
    (addEntry_capacity_bound (List.replicate MAX_HISTORY_ENTRIES ⟨"x.", 5, 0, "seed"⟩)
        "y." 7 1 "fresh").2.1
      (by simp) (by decide) (by decide) (by decide) (by decide)⟩

/-- The reachable state obtained by toggling `"Je"` off and on again. -/
def c7State : WordState := applyWordOps initialWordState [.toggle "Je", .toggle "Je"]

/-- C7 counterexample: after toggling `"Je"` off and back on, every
vocabulary word is selected, yet `getSelectedWords` does not list them
in vocabulary order — `"Je"` has moved to the end, refuting the claim
that the result is ordered by position in the original vocabulary. -/
theorem getSelectedWords_insertion_order_counterexample :
    ReachableWordState c7State ∧
    getSelectedWords c7State ≠
      (getAllWords c7State).filter (fun w => decide (w ∈ getSelectedWords c7State)) :=
  ⟨⟨[.toggle "Je", .toggle "Je"], rfl⟩, by decide⟩

/-- C7 (amended): in every reachable state `getSelectedWords` returns a
duplicate-free list whose members are exactly drawn from the
vocabulary, in the selection set's insertion order — which is the
vocabulary order right after startup or `selectAllWords`, but a word
toggled off and re-enabled is re-inserted at the end. -/
theorem getSelectedWords_amended (s : WordState) (h : ReachableWordState s) :
    (getSelectedWords s).Nodup ∧
    (∀ w ∈ getSelectedWords s, w ∈ getAllWords s) ∧
    getSelectedWords (selectAllWords s) = getAllWords s := by
  obtain ⟨hwords, hnd, hmem, _⟩ := wordInv_reachable h
  exact ⟨hnd, hmem, selectAllWords_selected s (hwords ▸ config_words_nodup)⟩

/-- Witness for the amended C7 at the startup state. -/
theorem getSelectedWords_amended_witness :
    (getSelectedWords initialWordState).Nodup ∧
    getSelectedWords (selectAllWords initialWordState) = getAllWords initialWordState :=
  ⟨(getSelectedWords_amended initialWordState ⟨[], rfl⟩).1,
    (getSelectedWords_amended initialWordState ⟨[], rfl⟩).2.2⟩

/-- C9: statistics over the empty history are the sentinel record
(`'-'` modelled as `none`); over a non-empty history the total is the
entry count, the average is `sum / N` rounded to two decimal places,
and best/worst are the maximum and minimum of the scores. -/
theorem statistics_spec (history : List HistoryEntry) :
    calculateStatistics [] = ⟨0, none, none, none⟩ ∧
    (history ≠ [] →
      (calculateStatistics history).total = history.length ∧
      (calculateStatistics history).average =
        some (jsToFixed2 ((history.map (·.note)).sum / history.length)) ∧
      (∃ b, (calculateStatistics history).best = some b ∧
        b ∈ history.map (·.note) ∧ ∀ x ∈ history.map (·.note), x ≤ b) ∧
      (∃ w, (calculateStatistics history).worst = some w ∧
        w ∈ history.map (·.note) ∧ ∀ x ∈ history.map (·.note), w ≤ x)) := by
  refine ⟨rfl, ?_⟩
  intro hne
  have hlen : ¬history.length = 0 := by
    simpa using hne
  have hmapne : history.map (·.note) ≠ [] := by
    simpa using hne
  unfold calculateStatistics
  rw [if_neg hlen]
  refine ⟨rfl, ?_, ?_, ?_⟩
  · simp only [Statistics.mk.injEq]
    rw [foldl_add_eq_sum, zero_add]
  · obtain ⟨b, hb, hbmem, hball⟩ := jsMaxList_spec _ hmapne
    exact ⟨b, hb, hbmem, hball⟩
  · obtain ⟨w, hw, hwmem, hwall⟩ := jsMinList_spec _ hmapne
    exact ⟨w, hw, hwmem, hwall⟩

/-- A concrete two-entry history. -/
def c9History : List HistoryEntry := [⟨"A.", 9, 0, "e1"⟩, ⟨"B.", 8, 1, "e2"⟩]

/-- Witness for C9 on a two-entry history. -/
theorem statistics_spec_witness :
    c9History ≠ [] ∧ (calculateStatistics c9History).total = c9History.length :=
  ⟨by decide, ((statistics_spec c9History).2 (by decide)).1⟩

/-- C10: `sortByRating` and `randomSort` both permute the stored
entries (the multiset of `{text, score, timestamp, id}` records is
preserved exactly), so the computed statistics are unchanged, and
`sortByRating` additionally orders the entries by score in the
requested direction. -/
theorem sort_shuffle_preserve_entries (history : List HistoryEntry)
    (ascending : Bool) (rand : Nat → Nat) :
    (sortByRating ascending history).Perm history ∧
    (randomSort rand history).Perm history ∧
    calculateStatistics (sortByRating ascending history) = calculateStatistics history ∧
    calculateStatistics (randomSort rand history) = calculateStatistics history ∧
    (sortByRating true history).Pairwise (fun a b => a.note ≤ b.note) ∧
    (sortByRating false history).Pairwise (fun a b => b.note ≤ a.note) := by
  have hperm : (sortByRating ascending history).Perm history := by
    unfold sortByRating
    split <;> exact List.mergeSort_perm history _
  have hperm2 : (randomSort rand history).Perm history := shuffleArray_perm rand history
  refine ⟨hperm, hperm2, calculateStatistics_perm hperm,
    calculateStatistics_perm hperm2, ?_, ?_⟩
  · have hs := @List.sorted_mergeSort HistoryEntry
      (fun a b : HistoryEntry => decide (a.note ≤ b.note))
      (fun a b c hab hbc => by
        simp only [decide_eq_true_eq] at hab hbc ⊢
        exact le_trans hab hbc)
      (fun a b => by
        simp only [Bool.or_eq_true, decide_eq_true_eq]
        exact le_total a.note b.note)
      history
    have he : sortByRating true history =
        history.mergeSort (fun a b => decide (a.note ≤ b.note)) := by
      unfold sortByRating
      rw [if_pos rfl]
    rw [he]
    exact hs.imp (fun hab => by simpa using hab)
  · have hs := @List.sorted_mergeSort HistoryEntry
      (fun a b : HistoryEntry => decide (b.note ≤ a.note))
      (fun a b c hab hbc => by
        simp only [decide_eq_true_eq] at hab hbc ⊢
        exact le_trans hbc hab)
      (fun a b => by
        simp only [Bool.or_eq_true, decide_eq_true_eq]
        exact le_total b.note a.note)
      history
    have he : sortByRating false history =
        history.mergeSort (fun a b => decide (b.note ≤ a.note)) := by
      unfold sortByRating
      rw [if_neg (by simp)]
    rw [he]
    exact hs.imp (fun hab => by simpa using hab)

/-- C2: every combination produced by a `generate()` call over a
duplicate-free pool with resolved word count `k ≤ |pool|` is the
formatting of some `k`-element duplicate-free selection from the pool:
tokens joined by single spaces, first token's first letter uppercased
(rest unchanged), non-initial literal `"Je"` lowercased, all other
tokens unchanged, and a single period appended. -/
theorem generated_combination_formatting (words : List String) (k : Nat)
    (rsel rshuf : Nat → Nat → Nat) (recent : List String)
    (hnd : words.Nodup) (hk : k ≤ words.length) :
    ∃ sel : List String, sel.length = k ∧ sel.Nodup ∧ (∀ w ∈ sel, w ∈ words) ∧
      (createCombination (genSample rsel rshuf words k) defaultGenConfig recent).1 =
        specFormatCombination sel := by
  obtain ⟨i, _, hres⟩ :=
    createCombination_is_sample (genSample rsel rshuf words k) defaultGenConfig recent
  obtain ⟨hlen, hnodup, hmem⟩ := selectRandomWords_spec (rsel i) (rshuf i) words k hnd hk
  refine ⟨selectRandomWords (rsel i) (rshuf i) words k, hlen, hnodup, hmem, ?_⟩
  rw [hres]
  exact formatCombination_eq_spec _

/-- Witness for C2 on a three-word pool with count 2. -/
theorem generated_combination_formatting_witness :
    (["Je", "suis", "tout"] : List String).Nodup ∧
    2 ≤ (["Je", "suis", "tout"] : List String).length ∧
    ∃ sel : List String, sel.length = 2 ∧ sel.Nodup ∧
      (∀ w ∈ sel, w ∈ (["Je", "suis", "tout"] : List String)) ∧
      (createCombination (genSample (fun _ _ => 0) (fun _ _ => 0) ["Je", "suis", "tout"] 2)
          defaultGenConfig []).1 = specFormatCombination sel :=
  ⟨by decide, by decide,
    generated_combination_formatting ["Je", "suis", "tout"] 2
      (fun _ _ => 0) (fun _ _ => 0) [] (by decide) (by decide)⟩

/-- C6: the retry loop of `generate()` resamples while the formatted
sentence is in the recent window, for up to 5 failed attempts, then
accepts the final sample regardless of repetition; the accepted
combination is always pushed into the window, the window never grows
beyond 10 entries, and a fresh combination entering a full window
evicts the oldest member. -/
theorem repeat_avoidance_and_window (words : List String) (k : Nat)
    (rsel rshuf : Nat → Nat → Nat) (recent : List String) :
    ((∀ i, i < 5 → genSample rsel rshuf words k i ∈ recent) →
      (createCombination (genSample rsel rshuf words k) defaultGenConfig recent).1 =
        genSample rsel rshuf words k 5) ∧
    (∀ i, i < 5 → genSample rsel rshuf words k i ∉ recent →
      (∀ j, j < i → genSample rsel rshuf words k j ∈ recent) →
      (createCombination (genSample rsel rshuf words k) defaultGenConfig recent).1 =
        genSample rsel rshuf words k i) ∧
    (recent.length ≤ MAX_RECENT_COMBINATIONS →
      (createCombination (genSample rsel rshuf words k) defaultGenConfig recent).1 ∈
        (createCombination (genSample rsel rshuf words k) defaultGenConfig recent).2) ∧
    (recent.length ≤ MAX_RECENT_COMBINATIONS →
      (createCombination (genSample rsel rshuf words k) defaultGenConfig recent).2.length ≤
        MAX_RECENT_COMBINATIONS) ∧
    ((createCombination (genSample rsel rshuf words k) defaultGenConfig recent).1 ∉ recent →
      recent.length = MAX_RECENT_COMBINATIONS →
      (createCombination (genSample rsel rshuf words k) defaultGenConfig recent).2 =
        recent.tail ++
          [(createCombination (genSample rsel rshuf words k) defaultGenConfig recent).1]) := by
  have hsnd : (createCombination (genSample rsel rshuf words k) defaultGenConfig recent).2 =
      addToRecentCombinations recent
        ((createCombination (genSample rsel rshuf words k) defaultGenConfig recent).1) := rfl
  refine ⟨?_, ?_, ?_, ?_, ?_⟩
  · intro hall
    have haux : createCombinationAux (genSample rsel rshuf words k) true recent 0 5 = none :=
      createCombinationAux_all_recent _ recent 5 0
        (fun t ht => by simpa using hall t ht)
    simp [createCombination, defaultGenConfig, haux]
  · intro i hi hfresh hprev
    have haux : createCombinationAux (genSample rsel rshuf words k) true recent 0 5 =
        some (genSample rsel rshuf words k i) := by
      have := createCombinationAux_first_fresh _ recent 5 0 i hi
        (by simpa using hfresh) (fun u hu => by simpa using hprev u hu)
      simpa using this
    simp [createCombination, defaultGenConfig, haux]
  · intro hlen
    rw [hsnd]
    exact mem_addToRecentCombinations hlen
  · intro hlen
    rw [hsnd]
    exact addToRecentCombinations_length hlen
  · intro hfresh hlen
    rw [hsnd]
    exact addToRecentCombinations_evict hfresh hlen

/-- A one-element window holding the only sentence the constant
oracle can produce, so that every retry fails. -/
def c6Recent : List String :=
  [genSample (fun _ _ => 0) (fun _ _ => 0) CONFIG_WORDS 3 0]

set_option maxRecDepth 4000 in
/-- Witness for C6: with every sample in the window, the sixth sample
is accepted regardless. -/
theorem repeat_avoidance_and_window_witness :
    (∀ i, i < 5 → genSample (fun _ _ => 0) (fun _ _ => 0) CONFIG_WORDS 3 i ∈ c6Recent) ∧
    (createCombination (genSample (fun _ _ => 0) (fun _ _ => 0) CONFIG_WORDS 3)
        defaultGenConfig c6Recent).1 =
      genSample (fun _ _ => 0) (fun _ _ => 0) CONFIG_WORDS 3 5 :=
  ⟨by decide,
    (repeat_avoidance_and_window CONFIG_WORDS 3 (fun _ _ => 0) (fun _ _ => 0) c6Recent).1
      (by decide)⟩

/-- C8: after a successful `submitRating()` the rating gate is
disabled, the selected score is cleared and no radio input remains
checked, so an immediate second `submitRating()` fails with the
"choose a rating" warning and changes nothing — in particular it adds
nothing to the history store. -/
theorem submit_success_disables_gate (s : AppState) (ts ts2 : Int) (id id2 : String)
    (h : (submitRating ts id s).2 = .success) :
    (submitRating ts id s).1.isRatingEnabled = false ∧
    (submitRating ts id s).1.currentRating = none ∧
    (submitRating ts id s).1.checkedRating = none ∧
    submitRating ts2 id2 (submitRating ts id s).1 =
      ((submitRating ts id s).1, .warnChooseRating) := by
  by_cases hr : isCombinationReadyForRating s = true
  · cases hc : s.checkedRating with
    | none => exact absurd h (by simp [submitRating, hr, hc])
    | some r =>
      by_cases h0 : r = 0
      · exact absurd h (by simp [submitRating, hr, hc, h0])
      · by_cases he : s.isRatingEnabled = true
        · by_cases hcc : s.currentCombination = ""
          · exact absurd h (by simp [submitRating, hr, hc, h0, he, hcc])
          · have hs1 : (submitRating ts id s).1 = disableRating
                { s with history :=
                    addEntry s.history s.currentCombination (r : ℚ) ts id } := by
              simp [submitRating, hr, hc, h0, he, hcc]
            have hparts : (s.isCombinationGenerated = true ∧
                s.isAnimationComplete = true) ∧ s.isGenerating = false := by
              simpa [isCombinationReadyForRating, isCombinationReady,
                isAnimationFinished, isCurrentlyGenerating, Bool.and_eq_true,
                Bool.not_eq_true'] using hr
            rw [hs1]
            refine ⟨rfl, rfl, rfl, ?_⟩
            have hr2 : isCombinationReadyForRating (disableRating
                { s with history :=
                    addEntry s.history s.currentCombination (r : ℚ) ts id }) = true := by
              simp [isCombinationReadyForRating, isCombinationReady,
                isAnimationFinished, isCurrentlyGenerating, disableRating,
                hparts.1.1, hparts.1.2, hparts.2]
            have hchecked : (disableRating
                { s with history :=
                    addEntry s.history s.currentCombination (r : ℚ) ts id }).checkedRating =
                none := rfl
            simp [submitRating, hr2, hchecked]
        · exact absurd h (by simp [submitRating, hr, hc, h0, he])
  · exact absurd h (by simp [submitRating, hr])

/-- A state in which a generation and its reveal have completed, the
gate is enabled and a score of 9 is selected. -/
def c8ReadyState : AppState :=
  { currentCombination := "Suis rêveur je."
    isCombinationGenerated := true
    isAnimationComplete := true
    isGenerating := false
    pendingReveal := false
    recentCombinations := ["Suis rêveur je."]
    isRatingEnabled := true
    currentRating := some 9
    checkedRating := some 9
    history := [] }

/-- Witness for C8 on a concrete ready state. -/
theorem submit_success_disables_gate_witness :
    (submitRating 5 "entry_a" c8ReadyState).2 = .success ∧
    ((submitRating 5 "entry_a" c8ReadyState).1.isRatingEnabled = false ∧
      (submitRating 5 "entry_a" c8ReadyState).1.currentRating = none ∧
      (submitRating 5 "entry_a" c8ReadyState).1.checkedRating = none ∧
      submitRating 6 "entry_b" (submitRating 5 "entry_a" c8ReadyState).1 =
        ((submitRating 5 "entry_a" c8ReadyState).1, .warnChooseRating)) :=
  ⟨by decide,
    submit_success_disables_gate c8ReadyState 5 6 "entry_a" "entry_b" (by decide)⟩

/-- The first generation's sampler (constant zero oracle). -/
def c3Sample1 : Nat → String := genSample (fun _ _ => 0) (fun _ _ => 0) CONFIG_WORDS 3

/-- A different sampler for the re-entrant call (constant one oracle). -/
def c3Sample2 : Nat → String := genSample (fun _ _ => 1) (fun _ _ => 0) CONFIG_WORDS 3

/-- The reachable state right after `generate()` returns, while the
reveal animation is still pending. -/
def c3MidReveal : AppState := (generateStep c3Sample1 CONFIG_WORDS initialAppState).1

set_option maxRecDepth 8000 in
/-- C3 (code bug): in the reachable mid-reveal state the engine's
`isGenerating` flag is already false — `generate()` sets it and
`resetCombinationState()` immediately clears it — so a re-entrant
`generate()` is not rejected: it starts a new cycle and overwrites the
current combination, contradicting the claimed guard. -/
theorem reentrant_generate_not_rejected :
    (c3MidReveal.pendingReveal = true ∧ c3MidReveal.isAnimationComplete = false ∧
      c3MidReveal.isGenerating = false ∧ c3MidReveal.currentCombination ≠ "") ∧
    (generateStep c3Sample2 CONFIG_WORDS c3MidReveal).2 = .started ∧
    (generateStep c3Sample2 CONFIG_WORDS c3MidReveal).1.currentCombination ≠
      c3MidReveal.currentCombination := by
  decide

end Poetic
